import Mathlib

/-!
Verification of the title-reconciliation and aggregation engine of
`processors/echo_adapter.py` (the Dashboard repository).

Shallow embedding conventions:
* Python strings are modelled as lists of character codes (`PyStr := List Nat`),
  restricted to the ASCII behaviour of `str.lower`, `str.isalnum`, `str.isspace`
  and of the regex classes `\s`, `\d` used by the adapter.  All concrete titles
  appearing in the source and its data are ASCII.
* Python floats are modelled as rationals (`ℚ`); `NaN`/missing cells are
  modelled with `Option`.
* pandas operations are modelled explicitly: `groupby` sorts its keys
  (pandas default `sort=True`), `merge(how="left")` produces one output row per
  (left row, matching right row), `GroupBy.first()` takes the first non-null
  value, `Series.mean()` skips nulls.
* `rapidfuzz.fuzz.token_set_ratio` (the module constant `FUZZY_SCORER`) is a
  third-party scoring function, not code of this repository; the matcher is
  therefore embedded parametrically in a `scorer : PyStr → PyStr → Nat`
  returning scores on the 0–100 scale, exactly as `_greedy_match` receives the
  scorer as data.  `process.extract`/`process.extractOne` are modelled as
  stable descending sort by score (ties keep lower index first) plus `take`.
-/

set_option maxRecDepth 4000
set_option linter.deprecated false

abbrev PyStr := List Nat

/-- ASCII model of Python's whitespace class (`str.isspace`, regex `\s`):
space, tab, newline, carriage return, vertical tab, form feed. -/
def isSp (n : Nat) : Bool :=
  decide (n = 32 ∨ n = 9 ∨ n = 10 ∨ n = 13 ∨ n = 11 ∨ n = 12)

/-- ASCII model of the regex class `\d`. -/
def isDig (n : Nat) : Bool := decide (48 ≤ n ∧ n ≤ 57)

/-- ASCII model of Python `str.isalnum`. -/
def isAlnum (n : Nat) : Bool :=
  decide ((48 ≤ n ∧ n ≤ 57) ∨ (65 ≤ n ∧ n ≤ 90) ∨ (97 ≤ n ∧ n ≤ 122))

/-- ASCII model of Python `str.lower` on a single character code. -/
def lowerN (n : Nat) : Nat := if 65 ≤ n ∧ n ≤ 90 then n + 32 else n

/-- Convert a Lean string literal to its code list (for concrete examples). -/
def strToCodes (s : String) : PyStr := s.toList.map Char.toNat

/-- Drop leading whitespace (`str.lstrip`). -/
def dropSpL (s : PyStr) : PyStr := s.dropWhile isSp

/-- Drop trailing whitespace (`str.rstrip`). -/
def dropSpR (s : PyStr) : PyStr := (s.reverse.dropWhile isSp).reverse

/-- Python `str.strip()`. -/
def pyStrip (s : PyStr) : PyStr := dropSpL (dropSpR s)

/-- Python `str.split(sep)` for a single-character separator, keeping empties. -/
def splitOn (d : Nat) (s : PyStr) : List PyStr :=
  s.foldr
    (fun c acc =>
      match acc with
      | [] => [[c]]
      | w :: ws => if c = d then [] :: w :: ws else (c :: w) :: ws)
    [[]]

/-- Numeric value of a digit string (codes 48–57). -/
def digitsVal (l : PyStr) : Nat := l.foldl (fun a d => a * 10 + (d - 48)) 0

/-- Flush the word being accumulated during whitespace-splitting. -/
def pySplitPack (p : PyStr × List PyStr) : List PyStr :=
  if p.1 = [] then p.2 else p.1 :: p.2

/-- One step of whitespace-splitting, used to model Python `str.split()`. -/
def splitStep (c : Nat) (p : PyStr × List PyStr) : PyStr × List PyStr :=
  if isSp c then ([], pySplitPack p) else (c :: p.1, p.2)

/-- Python `str.split()` (split on whitespace runs, dropping empty pieces). -/
def pySplit (s : PyStr) : List PyStr := pySplitPack (s.foldr splitStep ([], []))

/-- `" ".join(ws)`. -/
def joinWords : List PyStr → PyStr
  | [] => []
  | [w] => w
  | w :: x :: ws => w ++ 32 :: joinWords (x :: ws)

/-! ### Title normalization (`_strip_noise_tail`, `_norm_text`) -/

/-- Codes of the literal `"(read only)"` (lower case). -/
def readOnlyCodes : PyStr := [40, 114, 101, 97, 100, 32, 111, 110, 108, 121, 41]

/-- `_READ_ONLY_RE.sub("", s)`: remove one trailing, case-insensitive
`(read only)` marker together with surrounding whitespace
(pattern `\s*\(read only\)\s*$`). -/
def stripReadOnly (s : PyStr) : PyStr :=
  let t := dropSpR s
  if 11 ≤ t.length ∧ (t.drop (t.length - 11)).map lowerN = readOnlyCodes then
    dropSpR (t.take (t.length - 11))
  else s

/-- Does `p` have the shape of the inside of the parenthesised duration,
i.e. `\d{1,2}:\d{2}` or `\d{1,2}:\d{1,2}:\d{2}`? -/
def durInner (inner : PyStr) : Bool :=
  match splitOn 58 inner with
  | [a, b] =>
      decide (1 ≤ a.length ∧ a.length ≤ 2) && a.all isDig &&
      decide (b.length = 2) && b.all isDig
  | [a, b, c] =>
      decide (1 ≤ a.length ∧ a.length ≤ 2) && a.all isDig &&
      decide (1 ≤ b.length ∧ b.length ≤ 2) && b.all isDig &&
      decide (c.length = 2) && c.all isDig
  | _ => false

/-- Does `cs` match `\((?:\d{1,2}:)?\d{1,2}:\d{2}\)`? -/
def durChunk (cs : PyStr) : Bool :=
  decide (cs.head? = some 40) && decide (cs.getLast? = some 41) &&
  durInner ((cs.drop 1).dropLast)

/-- `_DURATION_TAIL_RE.sub("", s)`: remove one trailing parenthesised
duration marker (pattern `\s*\((?:\d{1,2}:)?\d{1,2}:\d{2}\)\s*$`).
The parenthesised chunk has length 6–10; longer chunks are preferred since
the regex match starts earliest. -/
def stripDurTail (s : PyStr) : PyStr :=
  let t := dropSpR s
  match [10, 9, 8, 7, 6].find?
      (fun n => decide (n ≤ t.length) && durChunk (t.drop (t.length - n))) with
  | some n => dropSpR (t.take (t.length - n))
  | none => s

/-- `_NUM_ID_TAIL_RE.sub("", s)`: remove one trailing `- 1234…` numeric id
(pattern `\s*-\s*\d{4,}\s*$`). -/
def stripNumId (s : PyStr) : PyStr :=
  let t := dropSpR s
  let d := (t.reverse.takeWhile isDig).reverse
  if 4 ≤ d.length then
    let u := dropSpR (t.take (t.length - d.length))
    if u.getLast? = some 45 then dropSpR (u.take (u.length - 1)) else s
  else s

/-- `_strip_noise_tail`. -/
def stripNoiseTail (s : PyStr) : PyStr :=
  if s = [] then []
  else pyStrip (stripNumId (stripDurTail (stripReadOnly s)))

/-- The character map of `_norm_text`:
`ch.lower() if (ch.isalnum() or ch.isspace()) else " "`. -/
def normChar (n : Nat) : Nat := if isAlnum n || isSp n then lowerN n else 32

/-- `_norm_text`: strip noise tail, lowercase/de-punctuate, collapse spaces. -/
def normText (s : PyStr) : PyStr :=
  joinWords (pySplit ((stripNoiseTail s).map normChar))

/-! ### Duration parsing (`_to_seconds`) -/

/-- A raw engagement-table cell: missing (`NaN`/`None`), numeric, or text. -/
inductive Cell where
  | missing : Cell
  | num : ℚ → Cell
  | txt : PyStr → Cell
deriving DecidableEq

/-- Exponent part of Python `float(...)` parsing (after `e`/`E`). -/
def expPart (mant : ℚ) (r : PyStr) : Option ℚ :=
  let p : Bool × PyStr :=
    match r with
    | 43 :: t => (false, t)
    | 45 :: t => (true, t)
    | _ => (false, r)
  let ed := p.2.takeWhile isDig
  if ed = [] ∨ p.2.drop ed.length ≠ [] then none
  else some (if p.1 then mant / (10 : ℚ) ^ digitsVal ed
             else mant * (10 : ℚ) ^ digitsVal ed)

/-- Python `float(string)` on decimal literals: optional surrounding
whitespace, optional sign, digits with an optional single point, optional
exponent.  (The `inf`/`nan` words and digit-group underscores accepted by
Python are not modelled; no input of the adapter's domain uses them.) -/
def pyFloat? (s0 : PyStr) : Option ℚ :=
  let s := pyStrip s0
  let q : ℚ × PyStr :=
    match s with
    | 43 :: r => (1, r)
    | 45 :: r => (-1, r)
    | _ => (1, s)
  let ip := q.2.takeWhile isDig
  let r1 := q.2.drop ip.length
  let w : PyStr × PyStr :=
    match r1 with
    | 46 :: r => (r.takeWhile isDig, r.drop (r.takeWhile isDig).length)
    | _ => ([], r1)
  if ip = [] ∧ w.1 = [] then none
  else
    let mant : ℚ :=
      q.1 * ((digitsVal ip : ℚ) + (digitsVal w.1 : ℚ) / (10 : ℚ) ^ w.1.length)
    match w.2 with
    | [] => some mant
    | 101 :: r3 => expPart mant r3
    | 69 :: r3 => expPart mant r3
    | _ => none

/-- `parts = [float(p) for p in parts]` under the enclosing `try`: all parts
parse, or the whole conversion fails. -/
def parseAll : List PyStr → Option (List ℚ)
  | [] => some []
  | p :: rest =>
    match pyFloat? p with
    | none => none
    | some v => (parseAll rest).map (v :: ·)

/-- `_to_seconds`: missing → missing; numeric → cast; numeric text → float
seconds; `h:m:s` → `h*3600+m*60+s`; `m:s` → `m*60+s`; else missing. -/
def toSeconds : Cell → Option ℚ
  | .missing => none
  | .num q => some q
  | .txt s0 =>
    let s := pyStrip s0
    if s = [] then none
    else
      match pyFloat? s with
      | some q => some q
      | none =>
        match parseAll (splitOn 58 s) with
        | none => none
        | some vs =>
          match vs with
          | [h, m, sec] => some (h * 3600 + m * 60 + sec)
          | [m, sec] => some (m * 60 + sec)
          | _ => none

/-! ### Column resolution (`_find_col`) -/

/-- Python substring test `p in s` (contiguous subsequence; empty `p` always
matches), written via `drop`/`take` to keep it purely structural. -/
def hasSub (p s : PyStr) : Bool :=
  (List.range (s.length + 1)).any (fun i => ((s.drop i).take p.length) = p)

/-- Update an association list in place, keeping the position of an existing
key (the behaviour of assignment into an insertion-ordered Python dict). -/
def updAssoc (l : List (PyStr × PyStr)) (k v : PyStr) : List (PyStr × PyStr) :=
  match l with
  | [] => [(k, v)]
  | (k', v') :: t => if k' = k then (k, v) :: t else (k', v') :: updAssoc t k v

/-- The dict `{c.lower(): c for c in df.columns}`: keys in order of first
appearance, each mapped to the **last** column with that lowered name. -/
def lowMap (cols : List PyStr) : List (PyStr × PyStr) :=
  cols.foldl (fun acc c => updAssoc acc (c.map lowerN) c) []

/-- The `KeyError` raised by `_find_col` carries the candidate list sought and
the table's actual column names (both appear in the message f-string). -/
structure MissingColumnError where
  want : List PyStr
  columns : List PyStr
deriving DecidableEq

/-- `_find_col`: first exact lower-cased match from `want`, else the first
column (in dict order) whose lowered name contains some candidate as a
substring, else an error (if `required`) or "not found". -/
def findCol (cols : List PyStr) (want : List PyStr) (required : Bool) :
    Except MissingColumnError (Option PyStr) :=
  let low := lowMap cols
  match want.findSome? (fun w => (low.find? (fun kv => kv.1 = w)).map (·.2)) with
  | some c => .ok (some c)
  | none =>
    match low.find? (fun kv => want.any (fun w => hasSub w kv.1)) with
    | some kv => .ok (some kv.2)
    | none => if required then .error ⟨want, cols⟩ else .ok none

/-! ### Greedy fuzzy matching (`_greedy_match`) -/

/-- Pair each element with its position (offset `n`). -/
def wIdx (n : Nat) : List α → List (Nat × α)
  | [] => []
  | a :: l => (n, a) :: wIdx (n + 1) l

/-- Stable descending order on `(index, score)` pairs: scores descending,
ties keeping the earlier element first (Python sorts are stable; rapidfuzz
returns equal-scored choices in input order). -/
def scoreGE (a b : Nat × Nat) : Prop := b.2 ≤ a.2

instance scoreGEDec : DecidableRel scoreGE := fun a b => Nat.decLe b.2 a.2

instance scoreGETotal : IsTotal (Nat × Nat) scoreGE := ⟨fun a b => Nat.le_total b.2 a.2⟩

instance scoreGETrans : IsTrans (Nat × Nat) scoreGE :=
  ⟨fun _ _ _ h1 h2 => Nat.le_trans h2 h1⟩

/-- `rapidfuzz.process.extract(q, choices, scorer, limit)`: all `(index, score)`
pairs, best scores first, truncated to `limit`. -/
def extractTop (scorer : PyStr → PyStr → Nat) (q : PyStr) (choices : List PyStr)
    (k : Nat) : List (Nat × Nat) :=
  (List.insertionSort scoreGE (wIdx 0 (choices.map (scorer q)))).take k

/-- `rapidfuzz.process.extractOne(q, choices, scorer)`: the best-scoring
`(index, score)` pair, `none` for empty `choices`. -/
def extractOne (scorer : PyStr → PyStr → Nat) (q : PyStr) (choices : List PyStr) :
    Option (Nat × Nat) :=
  (List.insertionSort scoreGE (wIdx 0 (choices.map (scorer q)))).head?

/-- The threshold-filtered candidate pool of `_greedy_match` (first loop). -/
def candsOf (scorer : PyStr → PyStr → Nat) (ekeys ckeys : List PyStr)
    (threshold topK : Nat) : List (Nat × Nat × Nat) :=
  (wIdx 0 ekeys).flatMap
    (fun p =>
      (extractTop scorer p.2 ckeys topK).filterMap
        (fun jc => if threshold ≤ jc.2 then some (p.1, jc.1, jc.2) else none))

/-- The fallback candidate pool of `_greedy_match` (second loop): best single
candidate per echo key, kept when its score reaches `fallbackMin`. -/
def fallbackCandsOf (scorer : PyStr → PyStr → Nat) (ekeys ckeys : List PyStr)
    (fallbackMin : Nat) : List (Nat × Nat × Nat) :=
  (wIdx 0 ekeys).filterMap
    (fun p =>
      match extractOne scorer p.2 ckeys with
      | some jc => if fallbackMin ≤ jc.2 then some (p.1, jc.1, jc.2) else none
      | none => none)

/-- Stable descending order for candidate triples `(i, j, score)`. -/
def candGE (a b : Nat × Nat × Nat) : Prop := b.2.2 ≤ a.2.2

instance candGEDec : DecidableRel candGE := fun a b => Nat.decLe b.2.2 a.2.2

instance candGETotal : IsTotal (Nat × Nat × Nat) candGE :=
  ⟨fun a b => Nat.le_total b.2.2 a.2.2⟩

instance candGETrans : IsTrans (Nat × Nat × Nat) candGE :=
  ⟨fun _ _ _ h1 h2 => Nat.le_trans h2 h1⟩

/-- Greedy selection with `used_e`/`used_c` sets: accept a candidate when
neither of its sides has been consumed. -/
def greedyPick : List (Nat × Nat × Nat) → List Nat → List Nat → List (Nat × Nat × Nat)
  | [], _, _ => []
  | p :: rest, ue, uc =>
    if p.1 ∈ ue ∨ p.2.1 ∈ uc then greedyPick rest ue uc
    else p :: greedyPick rest (p.1 :: ue) (p.2.1 :: uc)

/-- `_greedy_match`: candidate pool (fallback pool when it is empty), sorted
by score descending (stably), then greedy one-to-one selection. -/
def greedyMatch (scorer : PyStr → PyStr → Nat) (ekeys ckeys : List PyStr)
    (threshold fallbackMin topK : Nat) : List (Nat × Nat × Nat) :=
  let cands := candsOf scorer ekeys ckeys threshold topK
  let cands := if cands = [] then fallbackCandsOf scorer ekeys ckeys fallbackMin else cands
  greedyPick (List.insertionSort candGE cands) [] []

/-! ### The main builder (`build_echo_tables`) -/

/-- One engagement-table row after column resolution (§3 RawEngagementRow):
media title (as string), duration cell, view-time cell, optional user id.
The optional average-view-time column is parsed by the source but never used
downstream, so it is omitted here. -/
structure ERow where
  media : PyStr
  dur : Cell
  view : Cell
  user : Option PyStr
deriving DecidableEq

/-- One curriculum row from the course-structure collaborator, as consumed at
lines 204–209 of the adapter (`module`, `module_position`, a title column).
`none` fields model null cells, removed by the `dropna` on module/title. -/
structure CRow where
  module? : Option PyStr
  pos? : Option Int
  title? : Option PyStr
deriving DecidableEq

/-- One row of `echo_summary` (per-media aggregate) together with its
normalized key `_ekey`. -/
structure MediaRecord where
  title : PyStr
  dur : Option ℚ
  viewers : Nat
  avg : Option ℚ
  ekey : PyStr
deriving DecidableEq

/-- Row-level `__true_view_frac`: `view/dur` when `dur > 0`, else missing
(also missing when either cell fails to parse). -/
def trueViewFrac (r : ERow) : Option ℚ :=
  match toSeconds r.dur with
  | some d => if 0 < d then (toSeconds r.view).map (· / d) else none
  | none => none

/-- Lexicographic strict order on code lists (Python `<` on `str`). -/
def lexLt : PyStr → PyStr → Bool
  | [], [] => false
  | [], _ :: _ => true
  | _ :: _, [] => false
  | a :: as, b :: bs => if a < b then true else if b < a then false else lexLt as bs

/-- Lexicographic (non-strict) order on code lists. -/
def lexLe (a b : PyStr) : Prop := lexLt b a = false

instance lexLeDec : DecidableRel lexLe := fun a b => instDecidableEqBool (lexLt b a) false

/-- The sorted distinct grouping keys of a pandas `groupby` (`sort=True`). -/
def groupKeys (l : List PyStr) : List PyStr :=
  List.insertionSort lexLe l.dedup

/-- `echo_summary`: group rows by media title (string), pandas-sorted by key;
duration is the group's first non-null duration (`GroupBy.first`), viewer
count is distinct non-null users when a user column was resolved, else the
count of non-null view times; `Average View %` is the null-skipping mean of
the rows' true view fractions.  `_ekey` is the normalized title. -/
def echoSummaryOf (uidPresent : Bool) (rows : List ERow) : List MediaRecord :=
  (groupKeys (rows.map (·.media))).map (fun t =>
    let g := rows.filter (fun r => r.media = t)
    let viewers :=
      if uidPresent then (g.filterMap (·.user)).dedup.length
      else (g.filter (fun r => (toSeconds r.view).isSome)).length
    let fracs := g.filterMap trueViewFrac
    { title := t
      dur := g.findSome? (fun r => toSeconds r.dur)
      viewers := viewers
      avg := if fracs = [] then none else some (fracs.sum / (fracs.length : ℚ))
      ekey := normText t })

/-- `order`: curriculum rows with non-null module and title, keyed by the
normalized canvas title `_ckey`. -/
structure OrderRow where
  module : PyStr
  pos? : Option Int
  title : PyStr
  ckey : PyStr
deriving DecidableEq

def canvasOrderOf (curriculum : List CRow) : List OrderRow :=
  curriculum.filterMap (fun c =>
    match c.module?, c.title? with
    | some m, some t => some { module := m, pos? := c.pos?, title := t, ckey := normText t }
    | _, _ => none)

/-- One row of the merged table `m1`: the curriculum side plus the joined
per-media columns.  `hit` is the joined media record together with its index
in `echo_summary` (the index records which MediaRecord the metrics came from;
in the DataFrame the record is identified by its unique `Media Title`). -/
structure M1Row where
  module : PyStr
  pos? : Option Int
  title : PyStr
  ckey : PyStr
  hit : Option (Nat × MediaRecord)
deriving DecidableEq

/-- The joined average view fraction of an `m1` row (`Average View %`,
null when the row is unmatched or the matched media's average is null). -/
def avgOf (r : M1Row) : Option ℚ := r.hit.map (fun h => h.2.avg) |>.join

/-- The left merge `order.merge(es, left_on="_ckey", right_on="_ekey",
how="left")`: one output row per (order row, matching media record); an order
row with no match yields a single row with null media columns. -/
def m1Of (uidPresent : Bool) (rows : List ERow) (curriculum : List CRow) : List M1Row :=
  let es := wIdx 0 (echoSummaryOf uidPresent rows)
  (canvasOrderOf curriculum).flatMap (fun c =>
    match es.filter (fun m => m.2.ekey = c.ckey) with
    | [] => [{ module := c.module, pos? := c.pos?, title := c.title, ckey := c.ckey, hit := none }]
    | ms => ms.map (fun m =>
        { module := c.module, pos? := c.pos?, title := c.title, ckey := c.ckey, hit := some m }))

/-- `unmatched_idx`: positions of `m1` rows whose `Average View %` is null. -/
def unmatchedIdxOf (uidPresent : Bool) (rows : List ERow) (curriculum : List CRow) : List Nat :=
  (wIdx 0 (m1Of uidPresent rows curriculum)).filterMap
    (fun p => if avgOf p.2 = none then some p.1 else none)

/-- The fuzzy pairs of one run: `_greedy_match` over **all** echo keys and the
unmatched rows' canvas keys, with `THRESHOLD=80`, `FALLBACK_MIN=70`, `TOP_K=6`. -/
def fuzzyPairsOf (scorer : PyStr → PyStr → Nat) (uidPresent : Bool)
    (rows : List ERow) (curriculum : List CRow) : List (Nat × Nat × Nat) :=
  let m1 := m1Of uidPresent rows curriculum
  let ui := unmatchedIdxOf uidPresent rows curriculum
  let ekeys := (echoSummaryOf uidPresent rows).map (·.ekey)
  let ckeys := ui.filterMap (fun ix => (m1.get? ix).map (·.ckey))
  greedyMatch scorer ekeys ckeys 80 70 6

/-- `m1` after the fuzzy fill: the row at `unmatched_idx[j]` receives the
columns of the **first** `echo_summary` row whose `_ekey` equals `ekeys[i]`
(`es.loc[es["_ekey"] == ek].iloc[0]`). -/
def m1FilledOf (scorer : PyStr → PyStr → Nat) (uidPresent : Bool)
    (rows : List ERow) (curriculum : List CRow) : List M1Row :=
  let m1 := m1Of uidPresent rows curriculum
  let ui := unmatchedIdxOf uidPresent rows curriculum
  let es := echoSummaryOf uidPresent rows
  let prs := fuzzyPairsOf scorer uidPresent rows curriculum
  (wIdx 0 m1).map (fun p =>
    match prs.find? (fun q => ui.get? q.2.1 = some p.1) with
    | none => p.2
    | some q =>
      match es.get? q.1 with
      | none => p.2
      | some erow0 =>
        match (wIdx 0 es).find? (fun m => m.2.ekey = erow0.ekey) with
        | none => p.2
        | some m => { p.2 with hit := some m })

/-- `have`: the filled rows that enter module aggregation
(`m1.dropna(subset=["Average View %"])`). -/
def haveOf (scorer : PyStr → PyStr → Nat) (uidPresent : Bool)
    (rows : List ERow) (curriculum : List CRow) : List M1Row :=
  (m1FilledOf scorer uidPresent rows curriculum).filter (fun r => (avgOf r).isSome)

/-- The whole-run matched-pair set: curriculum row `ix` (by `m1` position) is
attached to `echo_summary` record `k` — exact merges and fuzzy fills alike. -/
def matchedPairsOf (scorer : PyStr → PyStr → Nat) (uidPresent : Bool)
    (rows : List ERow) (curriculum : List CRow) : List (Nat × Nat) :=
  (wIdx 0 (m1FilledOf scorer uidPresent rows curriculum)).filterMap
    (fun p => p.2.hit.map (fun h => (h.1, p.1)))

/-! ### Module aggregation and the student table -/

/-- One row of `module_table` (the two data-carrying columns; the emitted
`Overall View %` and `# of Students` columns are constant-null and omitted). -/
structure ModuleRow where
  module : PyStr
  avg : ℚ
  viewers : Nat
deriving DecidableEq

/-- Non-strict lexicographic order on `(module, position)` group keys, the
order in which a pandas `groupby` emits its groups. -/
def mkeyLe (a b : PyStr × Int) : Prop :=
  lexLt a.1 b.1 = true ∨ (a.1 = b.1 ∧ a.2 ≤ b.2)

instance mkeyLeDec : DecidableRel mkeyLe := fun a b => by
  unfold mkeyLe; infer_instance

/-- Order by `module_position` only, for the final `sort_values`. -/
def mposLe (a b : PyStr × Int) : Prop := a.2 ≤ b.2

instance mposLeDec : DecidableRel mposLe := fun a b => Int.decLe a.2 b.2

/-- `module_table`: `have` grouped by `(module, module_position)` (rows with a
null position are dropped by `groupby`), `Average View %` averaged and viewer
counts summed per group, ordered by `module_position`.  (pandas emits groups
in sorted key order and `sort_values` then orders by position; with distinct
positions, as in every curriculum export, this is exactly position order.) -/
def moduleTableOf (scorer : PyStr → PyStr → Nat) (uidPresent : Bool)
    (rows : List ERow) (curriculum : List CRow) : List ModuleRow :=
  let hv := haveOf scorer uidPresent rows curriculum
  if curriculum = [] then []
  else if hv = [] then []
  else
    let keys := (hv.filterMap (fun r => r.pos?.map (fun p => (r.module, p)))).dedup
    let keys := List.insertionSort mposLe (List.insertionSort mkeyLe keys)
    keys.map (fun k =>
      let g := hv.filter (fun r => r.module = k.1 ∧ r.pos? = some k.2)
      let avgs := g.filterMap avgOf
      { module := k.1
        avg := avgs.sum / (avgs.length : ℚ)
        viewers := (g.filterMap (fun r => r.hit.map (fun h => h.2.viewers))).sum })

/-- One row of the de-identified `student_table` (the constant-null
`Final Grade` column is omitted). -/
structure StudentRow where
  sid : PyStr
  avgWhenWatched : Option ℚ
  viewFracTotal : Option ℚ
deriving DecidableEq

/-- The grouping key of the student table: the user id, nulls pooled into
`"unknown"` (`df[uid_col].fillna("unknown")`). -/
def userKey (r : ERow) : PyStr := r.user.getD (strToCodes "unknown")

/-- Pseudonymous id `S0001, S0002, …` for position `ix` (Python format
string S, then ix+1 zero-padded to width 4). -/
def pseudoId (ix : Nat) : PyStr :=
  let ds := (Nat.toDigits 10 (ix + 1)).map Char.toNat
  83 :: (List.replicate (4 - ds.length) 48 ++ ds)

/-- `student_table`: rows grouped by user key (pandas-sorted);
`Average View % When Watched` is the null-skipping mean of the group's true
view fractions; `View % of Total Video` divides the user's summed view
seconds (`groupby(uid_col)[view_col].sum(min_count=1)`, so the null-keyed
group reindexes to null) by the sum of **all rows'** durations, and is null
throughout when that total is zero.  Keys are then replaced by sequential
pseudonymous ids. -/
def studentTableOf (uidPresent : Bool) (rows : List ERow) : List StudentRow :=
  if uidPresent then
    let total : ℚ := (rows.filterMap (fun r => toSeconds r.dur)).sum
    (wIdx 0 (groupKeys (rows.map userKey))).map (fun p =>
      let g := rows.filter (fun r => userKey r = p.2)
      let fracs := g.filterMap trueViewFrac
      let vsum :=
        let vs := (rows.filter (fun r => r.user = some p.2)).filterMap
          (fun r => toSeconds r.view)
        if vs = [] then none else some vs.sum
      { sid := pseudoId p.1
        avgWhenWatched := if fracs = [] then none else some (fracs.sum / (fracs.length : ℚ))
        viewFracTotal := if total = 0 then none else vsum.map (· / total) })
  else []

/-- The three output tables of one run of `build_echo_tables`. -/
structure EchoTables where
  echoSummary : List MediaRecord
  moduleTable : List ModuleRow
  studentTable : List StudentRow
deriving DecidableEq

/-- `build_echo_tables`, after column resolution, as a pure function of the
resolved engagement rows, the presence of a user-identity column, the
curriculum list, and the similarity scorer. -/
def buildEchoTables (scorer : PyStr → PyStr → Nat) (uidPresent : Bool)
    (rows : List ERow) (curriculum : List CRow) : EchoTables :=
  { echoSummary := echoSummaryOf uidPresent rows
    moduleTable := moduleTableOf scorer uidPresent rows curriculum
    studentTable := studentTableOf uidPresent rows }

/-! ### Helper lemmas: the normalizer's output is a fixed point -/

theorem mem_pySplitPack {p : PyStr × List PyStr} {w : PyStr} (h : w ∈ pySplitPack p) :
    w ∈ p.2 ∨ (w = p.1 ∧ p.1 ≠ []) := by
  by_cases h1 : p.1 = []
  · unfold pySplitPack at h; rw [if_pos h1] at h; exact Or.inl h
  · unfold pySplitPack at h; rw [if_neg h1] at h
    rcases List.mem_cons.mp h with h2 | h2
    · exact Or.inr ⟨h2, h1⟩
    · exact Or.inl h2

theorem foldr_splitStep_inv (s : PyStr) :
    (∀ c ∈ (s.foldr splitStep ([], [])).1, c ∈ s ∧ isSp c = false) ∧
    (∀ w ∈ (s.foldr splitStep ([], [])).2, w ≠ [] ∧ ∀ c ∈ w, c ∈ s ∧ isSp c = false) := by
  induction s with
  | nil => constructor <;> intro x hx <;> simp at hx
  | cons a t ih =>
    obtain ⟨ih1, ih2⟩ := ih
    have weak1 : ∀ c ∈ (t.foldr splitStep ([], [])).1, c ∈ a :: t ∧ isSp c = false :=
      fun c hc => ⟨List.mem_cons_of_mem _ (ih1 c hc).1, (ih1 c hc).2⟩
    have weak2 : ∀ w ∈ (t.foldr splitStep ([], [])).2,
        w ≠ [] ∧ ∀ c ∈ w, c ∈ a :: t ∧ isSp c = false :=
      fun w hw => ⟨(ih2 w hw).1, fun c hc =>
        ⟨List.mem_cons_of_mem _ ((ih2 w hw).2 c hc).1, ((ih2 w hw).2 c hc).2⟩⟩
    simp only [List.foldr_cons]
    unfold splitStep
    by_cases ha : isSp a = true
    · rw [if_pos ha]
      refine ⟨by simp, fun w hw => ?_⟩
      rcases mem_pySplitPack hw with hw | ⟨hw, hne⟩
      · exact weak2 w hw
      · subst hw; exact ⟨hne, weak1⟩
    · rw [if_neg ha]
      refine ⟨fun c hc => ?_, weak2⟩
      rcases List.mem_cons.mp hc with hc | hc
      · subst hc; exact ⟨List.mem_cons_self _ _, by simpa using ha⟩
      · exact weak1 c hc

theorem pySplit_sound {s w : PyStr} (hw : w ∈ pySplit s) :
    w ≠ [] ∧ ∀ c ∈ w, c ∈ s ∧ isSp c = false := by
  obtain ⟨h1, h2⟩ := foldr_splitStep_inv s
  unfold pySplit at hw
  rcases mem_pySplitPack hw with hw | ⟨hw, hne⟩
  · exact h2 w hw
  · subst hw; exact ⟨hne, h1⟩

theorem foldr_splitStep_nosp {w : PyStr} (h : ∀ c ∈ w, isSp c = false)
    (p : PyStr × List PyStr) : w.foldr splitStep p = (w ++ p.1, p.2) := by
  induction w with
  | nil => rfl
  | cons a t ih =>
    have ha : isSp a = false := h a (List.mem_cons_self _ _)
    have ht : ∀ c ∈ t, isSp c = false := fun c hc => h c (List.mem_cons_of_mem _ hc)
    simp only [List.foldr_cons, ih ht]
    unfold splitStep
    rw [if_neg (by simp [ha])]
    rfl

theorem pySplit_joinWords {ws : List PyStr}
    (h : ∀ w ∈ ws, w ≠ [] ∧ ∀ c ∈ w, isSp c = false) :
    pySplit (joinWords ws) = ws := by
  induction ws with
  | nil => rfl
  | cons w tail ih =>
    obtain ⟨h1, h2⟩ := h w (List.mem_cons_self _ _)
    cases tail with
    | nil =>
      unfold pySplit
      rw [show joinWords [w] = w from rfl, foldr_splitStep_nosp h2]
      unfold pySplitPack
      rw [if_neg (by simpa using h1)]
      simp
    | cons x rest =>
      have htail : ∀ v ∈ x :: rest, v ≠ [] ∧ ∀ c ∈ v, isSp c = false :=
        fun v hv => h v (List.mem_cons_of_mem _ hv)
      have hJ := ih htail
      unfold pySplit
      rw [show joinWords (w :: x :: rest) = w ++ 32 :: joinWords (x :: rest) from rfl,
          List.foldr_append, List.foldr_cons]
      rw [show splitStep 32 (List.foldr splitStep ([], []) (joinWords (x :: rest)))
            = ([], pySplit (joinWords (x :: rest))) from rfl]
      rw [hJ, foldr_splitStep_nosp h2]
      unfold pySplitPack
      rw [if_neg (by simpa using h1)]
      simp

theorem mem_joinWords {ws : List PyStr} {c : Nat} (h : c ∈ joinWords ws) :
    c = 32 ∨ ∃ w ∈ ws, c ∈ w := by
  induction ws with
  | nil => simp [joinWords] at h
  | cons w tail ih =>
    cases tail with
    | nil =>
      right; exact ⟨w, List.mem_cons_self _ _, h⟩
    | cons x rest =>
      rw [show joinWords (w :: x :: rest) = w ++ 32 :: joinWords (x :: rest) from rfl] at h
      rcases List.mem_append.mp h with h | h
      · right; exact ⟨w, List.mem_cons_self _ _, h⟩
      · rcases List.mem_cons.mp h with h | h
        · left; exact h
        · rcases ih h with h | ⟨v, hv, hc⟩
          · left; exact h
          · right; exact ⟨v, List.mem_cons_of_mem _ hv, hc⟩

theorem joinWords_ne_nil {ws : List PyStr} (hne : ws ≠ [])
    (h : ∀ w ∈ ws, w ≠ []) : joinWords ws ≠ [] := by
  cases ws with
  | nil => exact absurd rfl hne
  | cons w tail =>
    cases tail with
    | nil => exact h w (List.mem_cons_self _ _)
    | cons x rest =>
      rw [show joinWords (w :: x :: rest) = w ++ 32 :: joinWords (x :: rest) from rfl]
      simp

theorem joinWords_head?_nosp {ws : List PyStr}
    (h : ∀ w ∈ ws, w ≠ [] ∧ ∀ c ∈ w, isSp c = false) {c : Nat}
    (hc : (joinWords ws).head? = some c) : isSp c = false := by
  cases ws with
  | nil => simp [joinWords] at hc
  | cons w tail =>
    obtain ⟨h1, h2⟩ := h w (List.mem_cons_self _ _)
    have hw : (joinWords (w :: tail)).head? = w.head? := by
      cases tail with
      | nil => rfl
      | cons x rest =>
        rw [show joinWords (w :: x :: rest) = w ++ 32 :: joinWords (x :: rest) from rfl]
        rw [List.head?_append]
        cases w with
        | nil => exact absurd rfl h1
        | cons a t => rfl
    rw [hw] at hc
    exact h2 c (List.mem_of_mem_head? hc)

theorem joinWords_getLast?_nosp : ∀ {ws : List PyStr},
    (∀ w ∈ ws, w ≠ [] ∧ ∀ c ∈ w, isSp c = false) → ∀ {c : Nat},
    (joinWords ws).getLast? = some c → isSp c = false := by
  intro ws
  induction ws with
  | nil => intro _ c hc; simp [joinWords] at hc
  | cons w tail ih =>
    intro h c hc
    cases tail with
    | nil =>
      exact (h w (List.mem_cons_self _ _)).2 c (List.mem_of_getLast?_eq_some hc)
    | cons x rest =>
      have htail : ∀ v ∈ x :: rest, v ≠ [] ∧ ∀ c ∈ v, isSp c = false :=
        fun v hv => h v (List.mem_cons_of_mem _ hv)
      have hJne : joinWords (x :: rest) ≠ [] :=
        joinWords_ne_nil (by simp) (fun v hv => (htail v hv).1)
      rw [show joinWords (w :: x :: rest) = w ++ 32 :: joinWords (x :: rest) from rfl] at hc
      rw [List.getLast?_append] at hc
      have h32 : (32 :: joinWords (x :: rest)).getLast? = (joinWords (x :: rest)).getLast? := by
        cases hJ : joinWords (x :: rest) with
        | nil => exact absurd hJ hJne
        | cons a t => simp [List.getLast?_cons_cons]
      rw [h32] at hc
      cases hL : (joinWords (x :: rest)).getLast? with
      | none => exact absurd (List.getLast?_eq_none_iff.mp hL) hJne
      | some d =>
        rw [hL] at hc
        simp only [Option.or_some, Option.some.injEq] at hc
        subst hc
        exact ih htail hL

theorem normChar_ne_40_45 (d : Nat) : normChar d ≠ 40 ∧ normChar d ≠ 45 := by
  unfold normChar lowerN isAlnum isSp
  split_ifs with h1 h2 <;> simp_all <;> omega

theorem lowerN_eq_40 {c : Nat} (h : lowerN c = 40) : c = 40 := by
  unfold lowerN at h
  split_ifs at h <;> omega

theorem normChar_fixed {d : Nat} (hd : isSp (normChar d) = false) :
    normChar (normChar d) = normChar d := by
  unfold normChar lowerN isAlnum isSp at *
  split_ifs at *
  all_goals try simp_all
  all_goals omega

theorem dropSpR_eq_self {s : PyStr}
    (h : ∀ c, s.getLast? = some c → isSp c = false) : dropSpR s = s := by
  unfold dropSpR
  cases hs : s.reverse with
  | nil =>
    have : s = [] := by simpa using congrArg List.reverse hs
    simp [this]
  | cons a t =>
    have ha : s.getLast? = some a := by
      rw [← List.head?_reverse, hs]; rfl
    rw [List.dropWhile_cons_of_neg (by simp [h a ha])]
    rw [← hs, List.reverse_reverse]

theorem dropSpL_eq_self {s : PyStr}
    (h : ∀ c, s.head? = some c → isSp c = false) : dropSpL s = s := by
  unfold dropSpL
  cases s with
  | nil => rfl
  | cons a t => rw [List.dropWhile_cons_of_neg (by simp [h a rfl])]

theorem dropSpR_subset (s : PyStr) : dropSpR s ⊆ s := by
  intro c hc
  unfold dropSpR at hc
  have := List.dropWhile_subset (l := s.reverse) isSp (List.mem_reverse.mp hc)
  exact List.mem_reverse.mp this

theorem stripReadOnly_of (y : PyStr) (hR : dropSpR y = y)
    (h40 : ∀ c ∈ y, c ≠ 40) : stripReadOnly y = y := by
  simp only [stripReadOnly]
  rw [hR]
  exact if_neg (by
    rintro ⟨hlen, heq⟩
    have h40' : (40 : Nat) ∈ readOnlyCodes := by decide
    rw [← heq] at h40'
    obtain ⟨c, hc, hcl⟩ := List.mem_map.mp h40'
    exact h40 c (List.drop_subset _ _ hc) (lowerN_eq_40 hcl))

theorem stripDurTail_of (y : PyStr) (hR : dropSpR y = y)
    (h40 : ∀ c ∈ y, c ≠ 40) : stripDurTail y = y := by
  simp only [stripDurTail]
  rw [hR]
  have hnone : ([10, 9, 8, 7, 6] : List Nat).find?
      (fun n => decide (n ≤ y.length) && durChunk (y.drop (y.length - n))) = none := by
    rw [List.find?_eq_none]
    intro n _
    simp only [Bool.and_eq_true, decide_eq_true_eq, not_and]
    intro _ hchunk
    unfold durChunk at hchunk
    simp only [Bool.and_eq_true, decide_eq_true_eq] at hchunk
    obtain ⟨⟨hhead, _⟩, _⟩ := hchunk
    have hmem : (40 : Nat) ∈ y.drop (y.length - n) :=
      List.mem_of_mem_head? (by rw [hhead]; rfl)
    exact h40 40 (List.drop_subset _ _ hmem) rfl
  rw [hnone]

theorem stripNumId_of (y : PyStr) (hR : dropSpR y = y)
    (h45 : ∀ c ∈ y, c ≠ 45) : stripNumId y = y := by
  simp only [stripNumId]
  rw [hR]
  split_ifs with h1 h2
  · exfalso
    have h45' := List.mem_of_getLast?_eq_some h2
    exact h45 45 (List.take_subset _ _ (dropSpR_subset _ h45')) rfl
  · rfl
  · rfl

theorem stripNoiseTail_of {y : PyStr} (hR : dropSpR y = y) (hL : dropSpL y = y)
    (h40 : ∀ c ∈ y, c ≠ 40) (h45 : ∀ c ∈ y, c ≠ 45) : stripNoiseTail y = y := by
  unfold stripNoiseTail
  by_cases hy : y = []
  · simp [hy]
  · rw [if_neg hy, stripReadOnly_of y hR h40, stripDurTail_of y hR h40,
        stripNumId_of y hR h45]
    unfold pyStrip
    rw [hR, hL]

theorem normText_word_prop (x : PyStr) :
    ∀ w ∈ pySplit ((stripNoiseTail x).map normChar),
      w ≠ [] ∧ ∀ c ∈ w, isSp c = false ∧ ∃ d, c = normChar d := by
  intro w hw
  obtain ⟨h1, h2⟩ := pySplit_sound hw
  refine ⟨h1, fun c hc => ⟨(h2 c hc).2, ?_⟩⟩
  obtain ⟨d, _, hd⟩ := List.mem_map.mp (h2 c hc).1
  exact ⟨d, hd.symm⟩

theorem normText_chars (x : PyStr) :
    ∀ c ∈ normText x, c = 32 ∨ (isSp c = false ∧ ∃ d, c = normChar d) := by
  intro c hc
  unfold normText at hc
  rcases mem_joinWords hc with h | ⟨w, hw, hcw⟩
  · exact Or.inl h
  · obtain ⟨_, h2⟩ := normText_word_prop x w hw
    exact Or.inr (h2 c hcw)

theorem normText_no40_45 (x : PyStr) : ∀ c ∈ normText x, c ≠ 40 ∧ c ≠ 45 := by
  intro c hc
  rcases normText_chars x c hc with h | ⟨_, d, hd⟩
  · omega
  · subst hd; exact normChar_ne_40_45 d

theorem dropSpR_normText (x : PyStr) : dropSpR (normText x) = normText x := by
  refine dropSpR_eq_self (fun c hc => ?_)
  unfold normText at hc
  exact joinWords_getLast?_nosp
    (fun w hw => ⟨(normText_word_prop x w hw).1,
      fun c hc => ((normText_word_prop x w hw).2 c hc).1⟩) hc

theorem dropSpL_normText (x : PyStr) : dropSpL (normText x) = normText x := by
  refine dropSpL_eq_self (fun c hc => ?_)
  unfold normText at hc
  exact joinWords_head?_nosp
    (fun w hw => ⟨(normText_word_prop x w hw).1,
      fun c hc => ((normText_word_prop x w hw).2 c hc).1⟩) hc

theorem map_normChar_normText (x : PyStr) :
    (normText x).map normChar = normText x := by
  have h : ∀ c ∈ normText x, normChar c = c := by
    intro c hc
    rcases normText_chars x c hc with h | ⟨hsp, d, hd⟩
    · subst h; decide
    · subst hd; exact normChar_fixed hsp
  calc (normText x).map normChar = (normText x).map id :=
        List.map_congr_left (fun a ha => h a ha)
    _ = normText x := List.map_id _

theorem pySplit_normText (x : PyStr) :
    pySplit (normText x) = pySplit ((stripNoiseTail x).map normChar) := by
  unfold normText
  exact pySplit_joinWords (fun w hw => ⟨(normText_word_prop x w hw).1,
    fun c hc => ((normText_word_prop x w hw).2 c hc).1⟩)

/-! ### Claim C7 -/

/-- C7: the title normalizer `_norm_text` is idempotent — for every string
`x`, `normalize(normalize(x)) == normalize(x)`. -/
theorem claim_C7_normalizer_idempotence (x : PyStr) :
    normText (normText x) = normText x := by
  have h1 : stripNoiseTail (normText x) = normText x :=
    stripNoiseTail_of (dropSpR_normText x) (dropSpL_normText x)
      (fun c hc => (normText_no40_45 x c hc).1)
      (fun c hc => (normText_no40_45 x c hc).2)
  show joinWords (pySplit ((stripNoiseTail (normText x)).map normChar)) = normText x
  rw [h1, map_normChar_normText, pySplit_normText]
  rfl

/-! ### Claim C8 -/

/-- C8: `_to_seconds` follows the ordered rules — missing/empty input is
missing; a numeric value is cast to float; numeric-looking text parses as
float seconds; colon-split text whose parts all parse gives `h*3600+m*60+s`
for three parts and `m*60+s` for two; anything else (a part failing to parse,
or any other number of parts) is missing — tolerating fractional seconds; in
particular `"01:02:03" ↦ 3723.0`, `"12:34" ↦ 754.0`, `"45" ↦ 45.0`,
`"" ↦ missing`. -/
theorem claim_C8_duration_parsing :
    toSeconds .missing = none ∧
    (∀ q : ℚ, toSeconds (.num q) = some q) ∧
    (∀ s : PyStr, pyStrip s = [] → toSeconds (.txt s) = none) ∧
    (∀ (s : PyStr) (q : ℚ), pyStrip s ≠ [] → pyFloat? (pyStrip s) = some q →
        toSeconds (.txt s) = some q) ∧
    (∀ (s a b c : PyStr) (h m sec : ℚ), pyStrip s ≠ [] →
        pyFloat? (pyStrip s) = none → splitOn 58 (pyStrip s) = [a, b, c] →
        pyFloat? a = some h → pyFloat? b = some m → pyFloat? c = some sec →
        toSeconds (.txt s) = some (h * 3600 + m * 60 + sec)) ∧
    (∀ (s a b : PyStr) (m sec : ℚ), pyStrip s ≠ [] →
        pyFloat? (pyStrip s) = none → splitOn 58 (pyStrip s) = [a, b] →
        pyFloat? a = some m → pyFloat? b = some sec →
        toSeconds (.txt s) = some (m * 60 + sec)) ∧
    (∀ s : PyStr, pyStrip s ≠ [] → pyFloat? (pyStrip s) = none →
        parseAll (splitOn 58 (pyStrip s)) = none → toSeconds (.txt s) = none) ∧
    (∀ (s : PyStr) (vs : List ℚ), pyStrip s ≠ [] → pyFloat? (pyStrip s) = none →
        parseAll (splitOn 58 (pyStrip s)) = some vs →
        vs.length ≠ 2 → vs.length ≠ 3 → toSeconds (.txt s) = none) ∧
    toSeconds (.txt (strToCodes "01:02:03")) = some 3723 ∧
    toSeconds (.txt (strToCodes "12:34")) = some 754 ∧
    toSeconds (.txt (strToCodes "45")) = some 45 ∧
    toSeconds (.txt (strToCodes "")) = none ∧
    toSeconds (.txt (strToCodes "1:02.5")) = some (125 / 2) := by
  refine ⟨rfl, fun q => rfl, ?_, ?_, ?_, ?_, ?_, ?_, ?_, ?_, ?_, ?_, ?_⟩
  · intro s hs
    simp only [toSeconds, hs]
    rfl
  · intro s q hne hq
    simp only [toSeconds, if_neg hne, hq]
  · intro s a b c h m sec hne hf hsplit ha hb hc
    simp only [toSeconds, if_neg hne, hf, hsplit, parseAll, ha, hb, hc, Option.map_some']
  · intro s a b m sec hne hf hsplit ha hb
    simp only [toSeconds, if_neg hne, hf, hsplit, parseAll, ha, hb, Option.map_some']
  · intro s hne hf hps
    simp only [toSeconds, if_neg hne, hf, hps]
  · intro s vs hne hf hps h2 h3
    simp only [toSeconds, if_neg hne, hf, hps]
    match vs, h2, h3 with
    | [], _, _ => rfl
    | [a], _, _ => rfl
    | [a, b], h2, _ => exact absurd rfl h2
    | [a, b, c], _, h3 => exact absurd rfl h3
    | a :: b :: c :: d :: t, _, _ => rfl
  · with_unfolding_all rfl
  · with_unfolding_all rfl
  · with_unfolding_all rfl
  · with_unfolding_all rfl
  · with_unfolding_all rfl

/-- Witness for C8: the two-part rule applied at the concrete cell `"2:15"`,
with every hypothesis discharged by evaluation. -/
theorem claim_C8_duration_parsing_witness :
    toSeconds (.txt (strToCodes "2:15")) = some (2 * 60 + 15) :=
  claim_C8_duration_parsing.2.2.2.2.2.1 (strToCodes "2:15") (strToCodes "2")
    (strToCodes "15") 2 15 (by decide) (by with_unfolding_all rfl)
    (by decide) (by with_unfolding_all rfl) (by with_unfolding_all rfl)

/-! ### Claim C9 -/

theorem mem_updAssoc {l : List (PyStr × PyStr)} {k v : PyStr} {kv : PyStr × PyStr}
    (h : kv ∈ updAssoc l k v) : kv ∈ l ∨ kv = (k, v) := by
  induction l with
  | nil => simp only [updAssoc, List.mem_singleton] at h; exact Or.inr h
  | cons a t ih =>
    unfold updAssoc at h
    by_cases hk : a.1 = k
    · rw [if_pos hk] at h
      rcases List.mem_cons.mp h with h | h
      · exact Or.inr h
      · exact Or.inl (List.mem_cons_of_mem _ h)
    · rw [if_neg hk] at h
      rcases List.mem_cons.mp h with h | h
      · exact Or.inl (h ▸ List.mem_cons_self _ _)
      · rcases ih h with h | h
        · exact Or.inl (List.mem_cons_of_mem _ h)
        · exact Or.inr h

theorem lowMap_keys : ∀ {cols : List PyStr} {acc : List (PyStr × PyStr)}
    {kv : PyStr × PyStr},
    kv ∈ cols.foldl (fun a c => updAssoc a (c.map lowerN) c) acc →
    kv ∈ acc ∨ ∃ c ∈ cols, kv.1 = c.map lowerN := by
  intro cols
  induction cols with
  | nil => intro acc kv h; exact Or.inl h
  | cons c t ih =>
    intro acc kv h
    simp only [List.foldl_cons] at h
    rcases ih h with h | ⟨d, hd, hkv⟩
    · rcases mem_updAssoc h with h | h
      · exact Or.inl h
      · subst h; exact Or.inr ⟨c, List.mem_cons_self _ _, rfl⟩
    · exact Or.inr ⟨d, List.mem_cons_of_mem _ hd, hkv⟩

/-- C9: when a sought column is required and no table column matches any
candidate by case-insensitive exact equality or substring containment,
`_find_col` fails with an error naming the candidate list and the table's
actual columns; when not required it returns "not found" instead. -/
theorem claim_C9_column_resolution (cols want : List PyStr)
    (h : ∀ c ∈ cols, ∀ w ∈ want, c.map lowerN ≠ w ∧ hasSub w (c.map lowerN) = false) :
    findCol cols want true = .error ⟨want, cols⟩ ∧
    findCol cols want false = .ok none := by
  have hkey : ∀ kv ∈ lowMap cols, ∀ w ∈ want, kv.1 ≠ w ∧ hasSub w kv.1 = false := by
    intro kv hkv w hw
    rcases @lowMap_keys cols [] kv hkv with hfalse | ⟨c, hc, hk⟩
    · simp at hfalse
    · rw [hk]; exact h c hc w hw
  have h1 : want.findSome?
      (fun w => ((lowMap cols).find? (fun kv => kv.1 = w)).map (·.2)) = none := by
    rw [List.findSome?_eq_none_iff]
    intro w hw
    rw [Option.map_eq_none', List.find?_eq_none]
    intro kv hkv
    simpa using (hkey kv hkv w hw).1
  have h2 : (lowMap cols).find? (fun kv => want.any (fun w => hasSub w kv.1)) = none := by
    rw [List.find?_eq_none]
    intro kv hkv
    simp only [List.any_eq_true, not_exists, not_and]
    intro w hw
    simp [(hkey kv hkv w hw).2]
  simp only [findCol]
  rw [h1, h2]
  exact ⟨rfl, rfl⟩

/-- Witness for C9: a concrete table whose only column `"Weird"` matches no
candidate of `["media name"]`. -/
theorem claim_C9_column_resolution_witness :
    findCol [strToCodes "Weird"] [strToCodes "media name"] true =
      .error ⟨[strToCodes "media name"], [strToCodes "Weird"]⟩ ∧
    findCol [strToCodes "Weird"] [strToCodes "media name"] false = .ok none :=
  claim_C9_column_resolution [strToCodes "Weird"] [strToCodes "media name"]
    (by decide)

/-! ### Helper lemmas: the greedy matcher -/

theorem mem_wIdx {α : Type _} : ∀ (l : List α) (n i : Nat) (a : α),
    ((i, a) ∈ wIdx n l) ↔ (n ≤ i ∧ l.get? (i - n) = some a) := by
  intro l
  induction l with
  | nil => intro n i a; simp [wIdx]
  | cons b t ih =>
    intro n i a
    simp only [wIdx, List.mem_cons, ih]
    constructor
    · rintro (h | ⟨h1, h2⟩)
      · obtain ⟨rfl, rfl⟩ := Prod.mk.injEq _ _ _ _ ▸ h
        simp
      · refine ⟨by omega, ?_⟩
        have he : i - n = (i - (n + 1)) + 1 := by omega
        rw [he]
        simpa using h2
    · rintro ⟨h1, h2⟩
      by_cases hin : i = n
      · subst hin
        simp only [Nat.sub_self, List.get?_cons_zero, Option.some.injEq] at h2
        left; rw [h2]
      · right
        refine ⟨by omega, ?_⟩
        have he : i - n = (i - (n + 1)) + 1 := by omega
        rw [he] at h2
        simpa using h2

theorem greedyPick_subset : ∀ (l : List (Nat × Nat × Nat)) (ue uc : List Nat),
    ∀ p ∈ greedyPick l ue uc, p ∈ l := by
  intro l
  induction l with
  | nil => intro ue uc p hp; simp [greedyPick] at hp
  | cons q t ih =>
    intro ue uc p hp
    unfold greedyPick at hp
    by_cases hq : q.1 ∈ ue ∨ q.2.1 ∈ uc
    · rw [if_pos hq] at hp
      exact List.mem_cons_of_mem _ (ih _ _ p hp)
    · rw [if_neg hq] at hp
      rcases List.mem_cons.mp hp with h | h
      · exact h ▸ List.mem_cons_self _ _
      · exact List.mem_cons_of_mem _ (ih _ _ p h)

theorem greedyPick_fresh : ∀ (l : List (Nat × Nat × Nat)) (ue uc : List Nat),
    ∀ p ∈ greedyPick l ue uc, p.1 ∉ ue ∧ p.2.1 ∉ uc := by
  intro l
  induction l with
  | nil => intro ue uc p hp; simp [greedyPick] at hp
  | cons q t ih =>
    intro ue uc p hp
    unfold greedyPick at hp
    by_cases hq : q.1 ∈ ue ∨ q.2.1 ∈ uc
    · rw [if_pos hq] at hp
      exact ih _ _ p hp
    · rw [if_neg hq] at hp
      rcases List.mem_cons.mp hp with h | h
      · subst h
        exact ⟨fun hin => hq (Or.inl hin), fun hin => hq (Or.inr hin)⟩
      · have := ih _ _ p h
        exact ⟨fun hin => this.1 (List.mem_cons_of_mem _ hin),
               fun hin => this.2 (List.mem_cons_of_mem _ hin)⟩

theorem greedyPick_pairwise : ∀ (l : List (Nat × Nat × Nat)) (ue uc : List Nat),
    (greedyPick l ue uc).Pairwise (fun p q => p.1 ≠ q.1 ∧ p.2.1 ≠ q.2.1) := by
  intro l
  induction l with
  | nil => intro ue uc; simp [greedyPick]
  | cons q t ih =>
    intro ue uc
    unfold greedyPick
    by_cases hq : q.1 ∈ ue ∨ q.2.1 ∈ uc
    · rw [if_pos hq]; exact ih _ _
    · rw [if_neg hq]
      refine List.Pairwise.cons ?_ (ih _ _)
      intro p hp
      have := greedyPick_fresh t (q.1 :: ue) (q.2.1 :: uc) p hp
      exact ⟨fun he => this.1 (he ▸ List.mem_cons_self _ _),
             fun he => this.2 (he ▸ List.mem_cons_self _ _)⟩

theorem mem_extractTop {scorer : PyStr → PyStr → Nat} {q : PyStr}
    {choices : List PyStr} {k : Nat} {p : Nat × Nat}
    (h : p ∈ extractTop scorer q choices k) :
    ∃ c, choices.get? p.1 = some c ∧ p.2 = scorer q c := by
  have h1 : p ∈ List.insertionSort scoreGE (wIdx 0 (choices.map (scorer q))) :=
    List.mem_of_mem_take h
  have h2 : p ∈ wIdx 0 (choices.map (scorer q)) :=
    (List.mem_insertionSort scoreGE).mp h1
  have h3 := (mem_wIdx (choices.map (scorer q)) 0 p.1 p.2).mp (by simpa using h2)
  have h4 : (choices.map (scorer q)).get? p.1 = some p.2 := by simpa using h3.2
  rw [List.get?_map] at h4
  cases hc : choices.get? p.1 with
  | none => rw [hc] at h4; cases h4
  | some c =>
    rw [hc] at h4
    exact ⟨c, rfl, by simpa using h4.symm⟩

theorem extractTop_reaches {scorer : PyStr → PyStr → Nat} {q : PyStr}
    {choices : List PyStr} {t : Nat} {j : Nat} {c : PyStr}
    (hj : choices.get? j = some c) (hsc : t ≤ scorer q c) {k : Nat} (hk : 1 ≤ k) :
    ∃ p ∈ extractTop scorer q choices k, t ≤ p.2 := by
  have hget : (choices.map (scorer q)).get? j = some (scorer q c) := by
    rw [List.get?_map, hj]; rfl
  have hmem : (j, scorer q c) ∈ wIdx 0 (choices.map (scorer q)) :=
    (mem_wIdx _ 0 j (scorer q c)).mpr ⟨Nat.zero_le _, by simpa using hget⟩
  have hmemS : (j, scorer q c) ∈ List.insertionSort scoreGE (wIdx 0 (choices.map (scorer q))) :=
    (List.mem_insertionSort scoreGE).mpr hmem
  have hsorted := List.sorted_insertionSort scoreGE (wIdx 0 (choices.map (scorer q)))
  cases hL : List.insertionSort scoreGE (wIdx 0 (choices.map (scorer q))) with
  | nil => rw [hL] at hmemS; cases hmemS
  | cons hd rest =>
    refine ⟨hd, ?_, ?_⟩
    · unfold extractTop
      rw [hL]
      cases k with
      | zero => omega
      | succ k' => exact List.mem_cons_self _ _
    · rw [hL] at hmemS hsorted
      rcases List.mem_cons.mp hmemS with h1 | h1
      · have : hd.2 = scorer q c := by rw [← h1]
        omega
      · have hge : scoreGE hd (j, scorer q c) := List.rel_of_sorted_cons hsorted _ h1
        unfold scoreGE at hge
        omega

theorem extractOne_spec {scorer : PyStr → PyStr → Nat} {q : PyStr}
    {choices : List PyStr} {p : Nat × Nat}
    (h : extractOne scorer q choices = some p) :
    (∃ c, choices.get? p.1 = some c ∧ p.2 = scorer q c) ∧
    ∀ j c, choices.get? j = some c → scorer q c ≤ p.2 := by
  have hsorted := List.sorted_insertionSort scoreGE (wIdx 0 (choices.map (scorer q)))
  unfold extractOne at h
  cases hL : List.insertionSort scoreGE (wIdx 0 (choices.map (scorer q))) with
  | nil => rw [hL] at h; cases h
  | cons hd rest =>
    rw [hL] at h hsorted
    have hpd : hd = p := by simpa using h
    subst hpd
    constructor
    · have hmem : hd ∈ wIdx 0 (choices.map (scorer q)) :=
        (List.mem_insertionSort scoreGE).mp (by rw [hL]; exact List.mem_cons_self _ _)
      have h3 := (mem_wIdx (choices.map (scorer q)) 0 hd.1 hd.2).mp (by simpa using hmem)
      have h4 : (choices.map (scorer q)).get? hd.1 = some hd.2 := by simpa using h3.2
      rw [List.get?_map] at h4
      cases hc : choices.get? hd.1 with
      | none => rw [hc] at h4; cases h4
      | some c =>
        rw [hc] at h4
        exact ⟨c, rfl, by simpa using h4.symm⟩
    · intro j c hj
      have hget : (choices.map (scorer q)).get? j = some (scorer q c) := by
        rw [List.get?_map, hj]; rfl
      have hmem : (j, scorer q c) ∈ wIdx 0 (choices.map (scorer q)) :=
        (mem_wIdx _ 0 j (scorer q c)).mpr ⟨Nat.zero_le _, by simpa using hget⟩
      have hmemS : (j, scorer q c) ∈ hd :: rest := by
        rw [← hL]; exact (List.mem_insertionSort scoreGE).mpr hmem
      rcases List.mem_cons.mp hmemS with h1 | h1
      · have h2 : hd.2 = scorer q c := by rw [← h1]
        omega
      · have hge : scoreGE hd (j, scorer q c) := List.rel_of_sorted_cons hsorted _ h1
        unfold scoreGE at hge
        omega

theorem mem_candsOf {scorer : PyStr → PyStr → Nat} {ekeys ckeys : List PyStr}
    {t k : Nat} {p : Nat × Nat × Nat} (h : p ∈ candsOf scorer ekeys ckeys t k) :
    ∃ e c, ekeys.get? p.1 = some e ∧ ckeys.get? p.2.1 = some c ∧
      p.2.2 = scorer e c ∧ t ≤ p.2.2 := by
  unfold candsOf at h
  obtain ⟨⟨i, e⟩, hie, hp⟩ := List.mem_flatMap.mp h
  obtain ⟨⟨j, sc⟩, hjc, hif⟩ := List.mem_filterMap.mp hp
  have he : ekeys.get? i = some e := by
    have := (mem_wIdx ekeys 0 i e).mp hie
    simpa using this.2
  by_cases hts : t ≤ sc
  · rw [if_pos hts] at hif
    obtain rfl : (i, j, sc) = p := by simpa using hif
    obtain ⟨c, hc, hsc⟩ := mem_extractTop hjc
    exact ⟨e, c, he, hc, hsc, hts⟩
  · rw [if_neg hts] at hif
    cases hif

theorem candsOf_ne_nil {scorer : PyStr → PyStr → Nat} {ekeys ckeys : List PyStr}
    {t : Nat} {i j : Nat} {e c : PyStr}
    (he : ekeys.get? i = some e) (hc : ckeys.get? j = some c)
    (hsc : t ≤ scorer e c) : candsOf scorer ekeys ckeys t 6 ≠ [] := by
  obtain ⟨p, hp, hpt⟩ := @extractTop_reaches scorer e ckeys t j c hc hsc 6 (by omega)
  have hie : (i, e) ∈ wIdx 0 ekeys :=
    (mem_wIdx ekeys 0 i e).mpr ⟨Nat.zero_le _, by simpa using he⟩
  have hmem : (i, p.1, p.2) ∈ candsOf scorer ekeys ckeys t 6 := by
    unfold candsOf
    refine List.mem_flatMap.mpr ⟨(i, e), hie, ?_⟩
    refine List.mem_filterMap.mpr ⟨p, hp, ?_⟩
    rw [if_pos hpt]
  exact List.ne_nil_of_mem hmem

theorem mem_fallbackCandsOf {scorer : PyStr → PyStr → Nat} {ekeys ckeys : List PyStr}
    {f : Nat} {p : Nat × Nat × Nat} (h : p ∈ fallbackCandsOf scorer ekeys ckeys f) :
    ∃ e c, ekeys.get? p.1 = some e ∧ ckeys.get? p.2.1 = some c ∧
      p.2.2 = scorer e c ∧ f ≤ p.2.2 ∧
      ∀ j' c', ckeys.get? j' = some c' → scorer e c' ≤ p.2.2 := by
  unfold fallbackCandsOf at h
  obtain ⟨⟨i, e⟩, hie, hif⟩ := List.mem_filterMap.mp h
  have he : ekeys.get? i = some e := by
    have := (mem_wIdx ekeys 0 i e).mp hie
    simpa using this.2
  cases hone : extractOne scorer e ckeys with
  | none => rw [hone] at hif; cases hif
  | some jc =>
    rw [hone] at hif
    have hif2 : (if f ≤ jc.2 then some ((i, e).1, jc.1, jc.2) else none) = some p := hif
    by_cases hf : f ≤ jc.2
    · rw [if_pos hf] at hif2
      obtain rfl : (i, jc.1, jc.2) = p := by simpa using hif2
      obtain ⟨⟨c, hc, hsc⟩, hmax⟩ := extractOne_spec hone
      exact ⟨e, c, he, hc, hsc, hf, hmax⟩
    · rw [if_neg hf] at hif2
      cases hif2

theorem mem_greedyMatch {scorer : PyStr → PyStr → Nat} {ekeys ckeys : List PyStr}
    {t f k : Nat} {p : Nat × Nat × Nat}
    (h : p ∈ greedyMatch scorer ekeys ckeys t f k) :
    ∃ e c, ekeys.get? p.1 = some e ∧ ckeys.get? p.2.1 = some c ∧ p.2.2 = scorer e c := by
  unfold greedyMatch at h
  have h1 := greedyPick_subset _ _ _ p h
  have h2 := (List.mem_insertionSort candGE).mp h1
  by_cases hc : candsOf scorer ekeys ckeys t k = []
  · rw [if_pos hc] at h2
    obtain ⟨e, c, he, hcc, hsc, _, _⟩ := mem_fallbackCandsOf h2
    exact ⟨e, c, he, hcc, hsc⟩
  · rw [if_neg hc] at h2
    obtain ⟨e, c, he, hcc, hsc, _⟩ := mem_candsOf h2
    exact ⟨e, c, he, hcc, hsc⟩

/-! ### Claims C1 and C2 -/

/-- C1 (amended): the uniqueness the matcher enforces is per-phase, not
whole-run — within one `_greedy_match` selection every echo index and every
canvas index is used at most once (any two distinct accepted triples differ
in both coordinates). Whole-run uniqueness fails: the Phase-1 merge attaches
one media record to every curriculum row sharing its normalized title, and a
media record matched exactly in Phase 1 is offered to Phase 2 again (see the
counterexample). -/
theorem claim_C1_matching_uniqueness (scorer : PyStr → PyStr → Nat)
    (ekeys ckeys : List PyStr) (t f k : Nat) :
    ∀ p ∈ greedyMatch scorer ekeys ckeys t f k,
      ∀ q ∈ greedyMatch scorer ekeys ckeys t f k,
        p ≠ q → p.1 ≠ q.1 ∧ p.2.1 ≠ q.2.1 := by
  intro p hp q hq hne
  unfold greedyMatch at hp hq
  have hpw := greedyPick_pairwise
    (List.insertionSort candGE
      (if candsOf scorer ekeys ckeys t k = [] then fallbackCandsOf scorer ekeys ckeys f
       else candsOf scorer ekeys ckeys t k)) [] []
  exact hpw.forall (fun a b hab => ⟨hab.1.symm, hab.2.symm⟩) hp hq hne

/-- Witness for C1: a run with two accepted fuzzy pairs, whose indices the
theorem proves disjoint. -/
theorem claim_C1_matching_uniqueness_witness : (0 : Nat) ≠ 1 ∧ (0 : Nat) ≠ 1 :=
  claim_C1_matching_uniqueness (fun _ _ => 100) [[97], [98]] [[99], [100]] 80 70 6
    (0, 0, 100) (by decide) (1, 1, 100) (by decide) (by decide)

/-- Counterexample to C1 as stated: two curriculum items (`"Lecture 1"` and
`"Lecture 1!"`) normalize to the same key, and the Phase-1 merge attaches the
single media record `"Lecture 1"` to both rows — MediaRecord index 0 appears
in two accepted pairs of one run. -/
theorem claim_C1_counterexample :
    matchedPairsOf (fun _ _ => 0) false
      [⟨strToCodes "Lecture 1", .txt (strToCodes "600"), .txt (strToCodes "300"), none⟩]
      [⟨some (strToCodes "W1"), some 1, some (strToCodes "Lecture 1")⟩,
       ⟨some (strToCodes "W1"), some 1, some (strToCodes "Lecture 1!")⟩]
      = [(0, 0), (0, 1)] ∧
    ¬ (List.map Prod.fst (matchedPairsOf (fun _ _ => 0) false
      [⟨strToCodes "Lecture 1", .txt (strToCodes "600"), .txt (strToCodes "300"), none⟩]
      [⟨some (strToCodes "W1"), some 1, some (strToCodes "Lecture 1")⟩,
       ⟨some (strToCodes "W1"), some 1, some (strToCodes "Lecture 1!")⟩])).Nodup := by
  have h : matchedPairsOf (fun _ _ => 0) false
      [⟨strToCodes "Lecture 1", .txt (strToCodes "600"), .txt (strToCodes "300"), none⟩]
      [⟨some (strToCodes "W1"), some 1, some (strToCodes "Lecture 1")⟩,
       ⟨some (strToCodes "W1"), some 1, some (strToCodes "Lecture 1!")⟩]
      = [(0, 0), (0, 1)] := by with_unfolding_all rfl
  refine ⟨h, ?_⟩
  rw [h]
  decide

/-- C2 (amended): every pair accepted by the fuzzy phase carries the scorer's
score of its keys; when any candidate pair anywhere reaches `THRESHOLD=80`,
every accepted pair scores ≥ 80, otherwise every accepted pair scores
≥ `FALLBACK_MIN=70` and is the best-scoring candidate for its MediaRecord.
The claim's converse direction is false: a pair scoring ≥ 80 can be rejected
when one of its sides was already consumed (see the counterexample). -/
theorem claim_C2_threshold_law (scorer : PyStr → PyStr → Nat) (ekeys ckeys : List PyStr) :
    ∀ p ∈ greedyMatch scorer ekeys ckeys 80 70 6,
      (∃ e c, ekeys.get? p.1 = some e ∧ ckeys.get? p.2.1 = some c ∧ p.2.2 = scorer e c) ∧
      ((∃ i j e c, ekeys.get? i = some e ∧ ckeys.get? j = some c ∧ 80 ≤ scorer e c) →
        80 ≤ p.2.2) ∧
      ((¬ ∃ i j e c, ekeys.get? i = some e ∧ ckeys.get? j = some c ∧ 80 ≤ scorer e c) →
        70 ≤ p.2.2 ∧
        ∀ e, ekeys.get? p.1 = some e →
          ∀ j c, ckeys.get? j = some c → scorer e c ≤ p.2.2) := by
  intro p hp
  refine ⟨mem_greedyMatch hp, ?_, ?_⟩
  · rintro ⟨i, j, e, c, he, hc, hsc⟩
    have hne := @candsOf_ne_nil scorer ekeys ckeys 80 i j e c he hc hsc
    simp only [greedyMatch] at hp
    rw [if_neg hne] at hp
    have h2 := (List.mem_insertionSort candGE).mp (greedyPick_subset _ _ _ p hp)
    obtain ⟨_, _, _, _, _, h80⟩ := mem_candsOf h2
    exact h80
  · intro hnot
    have hcempty : candsOf scorer ekeys ckeys 80 6 = [] := by
      cases hcc : candsOf scorer ekeys ckeys 80 6 with
      | nil => rfl
      | cons a rest =>
        exfalso
        have ha : a ∈ candsOf scorer ekeys ckeys 80 6 := by
          rw [hcc]; exact List.mem_cons_self _ _
        obtain ⟨e, c, he, hc, hsc, h80⟩ := mem_candsOf ha
        exact hnot ⟨a.1, a.2.1, e, c, he, hc, hsc ▸ h80⟩
    simp only [greedyMatch] at hp
    rw [if_pos hcempty] at hp
    have h2 := (List.mem_insertionSort candGE).mp (greedyPick_subset _ _ _ p hp)
    obtain ⟨e, c, he, hc, hsc, h70, hmax⟩ := mem_fallbackCandsOf h2
    refine ⟨h70, ?_⟩
    intro e' he' j c' hc'
    have hee : e = e' := by
      have := he.symm.trans he'
      injection this
    subst hee
    exact hmax j c' hc'

/-- Witness for C2: a run in normal (threshold) mode; the theorem yields the
score identity and the ≥ 80 bound for the accepted pair. -/
theorem claim_C2_threshold_law_witness :
    (∃ e c, ([[97]] : List PyStr).get? 0 = some e ∧
      ([[99]] : List PyStr).get? 0 = some c ∧
      (90 : Nat) = (fun (_ _ : PyStr) => 90) e c) ∧ (80 : Nat) ≤ 90 := by
  have h := claim_C2_threshold_law (fun _ _ => 90) [[97]] [[99]] (0, 0, 90) (by decide)
  exact ⟨h.1, h.2.1 ⟨0, 0, [97], [99], by decide, by decide, by decide⟩⟩

/-- Counterexample to C2 as stated ("accepted iff score ≥ 80"): two echo keys
both score 100 against the single canvas key; the pair `(1, 0)` scores
100 ≥ 80 yet is not accepted, because greedy one-to-one selection already
consumed the canvas side. -/
theorem claim_C2_counterexample :
    greedyMatch (fun _ _ => 100) [[97], [98]] [[99]] 80 70 6 = [(0, 0, 100)] ∧
    (1, 0, 100) ∉ greedyMatch (fun _ _ => 100) [[97], [98]] [[99]] 80 70 6 ∧
    (80 : Nat) ≤ 100 := by decide

/-! ### Claims C3 and C10 -/

theorem mem_unmatchedIdx {u : Bool} {rows : List ERow} {cur : List CRow} {ix : Nat} :
    ix ∈ unmatchedIdxOf u rows cur ↔
    ∃ r, (m1Of u rows cur).get? ix = some r ∧ avgOf r = none := by
  unfold unmatchedIdxOf
  rw [List.mem_filterMap]
  constructor
  · rintro ⟨⟨i, r⟩, hmem, hif⟩
    by_cases h : avgOf r = none
    · rw [if_pos h] at hif
      have hix : i = ix := by simpa using hif
      have hw := (mem_wIdx _ 0 i r).mp hmem
      refine ⟨r, ?_, h⟩
      rw [← hix]
      simpa using hw.2
    · rw [if_neg h] at hif
      cases hif
  · rintro ⟨r, hget, havg⟩
    refine ⟨(ix, r), (mem_wIdx _ 0 ix r).mpr ⟨Nat.zero_le _, by simpa using hget⟩, ?_⟩
    rw [if_pos havg]

theorem filterMap_eq_map_of {α β : Type _} {l : List α} {f : α → Option β} {g : α → β}
    (h : ∀ a ∈ l, f a = some (g a)) : l.filterMap f = l.map g := by
  induction l with
  | nil => rfl
  | cons a t ih =>
    simp [List.filterMap_cons, h a (List.mem_cons_self _ _),
          ih (fun b hb => h b (List.mem_cons_of_mem _ hb))]

theorem ckeysOf_eq (u : Bool) (rows : List ERow) (cur : List CRow) :
    (unmatchedIdxOf u rows cur).filterMap
        (fun ix => ((m1Of u rows cur).get? ix).map (·.ckey)) =
      (unmatchedIdxOf u rows cur).map
        (fun ix => (((m1Of u rows cur).get? ix).map (·.ckey)).getD []) := by
  refine filterMap_eq_map_of ?_
  intro ix hix
  obtain ⟨r, hget, _⟩ := mem_unmatchedIdx.mp hix
  rw [hget]
  rfl

/-- C3 (amended): the canvas side of the fuzzy pass is exactly the `m1` rows
whose joined average view fraction is missing (every fuzzy pair targets such
a row), but the media side is **all** `echo_summary` records — a MediaRecord
consumed by an exact Phase-1 match is offered to Phase 2 again (see the
counterexample). -/
theorem claim_C3_phase2_scope (scorer : PyStr → PyStr → Nat) (u : Bool)
    (rows : List ERow) (cur : List CRow) :
    (∀ ix ∈ unmatchedIdxOf u rows cur,
      ∃ r, (m1Of u rows cur).get? ix = some r ∧ avgOf r = none) ∧
    (∀ ix r, (m1Of u rows cur).get? ix = some r → avgOf r = none →
      ix ∈ unmatchedIdxOf u rows cur) ∧
    (∀ p ∈ fuzzyPairsOf scorer u rows cur,
      ∃ ix r, (unmatchedIdxOf u rows cur).get? p.2.1 = some ix ∧
        (m1Of u rows cur).get? ix = some r ∧ avgOf r = none) := by
  refine ⟨fun ix hix => mem_unmatchedIdx.mp hix,
          fun ix r hget havg => mem_unmatchedIdx.mpr ⟨r, hget, havg⟩, ?_⟩
  intro p hp
  simp only [fuzzyPairsOf] at hp
  obtain ⟨e, c, _, hc, _⟩ := mem_greedyMatch hp
  rw [ckeysOf_eq, List.get?_map] at hc
  cases hui : (unmatchedIdxOf u rows cur).get? p.2.1 with
  | none => rw [hui] at hc; cases hc
  | some ix =>
    have hmem : ix ∈ unmatchedIdxOf u rows cur := List.get?_mem hui
    obtain ⟨r, hget, havg⟩ := mem_unmatchedIdx.mp hmem
    exact ⟨ix, r, rfl, hget, havg⟩

/-- Witness for C3: a curriculum with one exactly-matched row and one
unmatched row; the fuzzy pair targets the unmatched row, whose joined average
is missing. -/
theorem claim_C3_phase2_scope_witness :
    ∃ ix r,
      (unmatchedIdxOf false
        [⟨strToCodes "Alpha", .txt (strToCodes "600"), .txt (strToCodes "300"), none⟩]
        [⟨some (strToCodes "W1"), some 1, some (strToCodes "Alpha")⟩,
         ⟨some (strToCodes "W1"), some 2, some (strToCodes "Beta")⟩]).get? 0 = some ix ∧
      (m1Of false
        [⟨strToCodes "Alpha", .txt (strToCodes "600"), .txt (strToCodes "300"), none⟩]
        [⟨some (strToCodes "W1"), some 1, some (strToCodes "Alpha")⟩,
         ⟨some (strToCodes "W1"), some 2, some (strToCodes "Beta")⟩]).get? ix = some r ∧
      avgOf r = none :=
  (claim_C3_phase2_scope
    (fun e c => if e = strToCodes "alpha" ∧ c = strToCodes "beta" then 85 else 0) false
    [⟨strToCodes "Alpha", .txt (strToCodes "600"), .txt (strToCodes "300"), none⟩]
    [⟨some (strToCodes "W1"), some 1, some (strToCodes "Alpha")⟩,
     ⟨some (strToCodes "W1"), some 2, some (strToCodes "Beta")⟩]).2.2
    (0, 0, 85) (by
      rw [show fuzzyPairsOf
          (fun e c => if e = strToCodes "alpha" ∧ c = strToCodes "beta" then 85 else 0) false
          [⟨strToCodes "Alpha", .txt (strToCodes "600"), .txt (strToCodes "300"), none⟩]
          [⟨some (strToCodes "W1"), some 1, some (strToCodes "Alpha")⟩,
           ⟨some (strToCodes "W1"), some 2, some (strToCodes "Beta")⟩] = [(0, 0, 85)]
        from by with_unfolding_all rfl]
      exact List.mem_cons_self _ _)

/-- Counterexample to C3 as stated: media record 0 (`"Alpha"`) is consumed by
the exact pass (row 0 of `m1`) and is nevertheless chosen by the fuzzy pass
for the unmatched row `"Beta"` — the media side is never narrowed to
unmatched records. -/
theorem claim_C3_counterexample :
    ((m1Of false
      [⟨strToCodes "Alpha", .txt (strToCodes "600"), .txt (strToCodes "300"), none⟩]
      [⟨some (strToCodes "W1"), some 1, some (strToCodes "Alpha")⟩,
       ⟨some (strToCodes "W1"), some 2, some (strToCodes "Beta")⟩]).map
        (fun r => r.hit.map Prod.fst) = [some 0, none]) ∧
    fuzzyPairsOf
      (fun e c => if e = strToCodes "alpha" ∧ c = strToCodes "beta" then 85 else 0) false
      [⟨strToCodes "Alpha", .txt (strToCodes "600"), .txt (strToCodes "300"), none⟩]
      [⟨some (strToCodes "W1"), some 1, some (strToCodes "Alpha")⟩,
       ⟨some (strToCodes "W1"), some 2, some (strToCodes "Beta")⟩] = [(0, 0, 85)] ∧
    matchedPairsOf
      (fun e c => if e = strToCodes "alpha" ∧ c = strToCodes "beta" then 85 else 0) false
      [⟨strToCodes "Alpha", .txt (strToCodes "600"), .txt (strToCodes "300"), none⟩]
      [⟨some (strToCodes "W1"), some 1, some (strToCodes "Alpha")⟩,
       ⟨some (strToCodes "W1"), some 2, some (strToCodes "Beta")⟩] = [(0, 0), (0, 1)] :=
  ⟨by with_unfolding_all rfl, by with_unfolding_all rfl, by with_unfolding_all rfl⟩

/-- C10: a curriculum row is classified as unmatched for the fuzzy pass
precisely when its joined `Average View %` is missing — also when an exact
title match succeeded but the matched media's average is missing — and any
row still missing after the fill is excluded from module aggregation. -/
theorem claim_C10_unmatched_classification (scorer : PyStr → PyStr → Nat) (u : Bool)
    (rows : List ERow) (cur : List CRow) :
    (∀ ix r, (m1Of u rows cur).get? ix = some r →
      (avgOf r = none ↔ ix ∈ unmatchedIdxOf u rows cur)) ∧
    (∀ r ∈ m1FilledOf scorer u rows cur,
      avgOf r = none → r ∉ haveOf scorer u rows cur) := by
  constructor
  · intro ix r hget
    constructor
    · intro havg; exact mem_unmatchedIdx.mpr ⟨r, hget, havg⟩
    · intro hix
      obtain ⟨r', hget', havg'⟩ := mem_unmatchedIdx.mp hix
      rw [hget] at hget'
      injection hget' with hrr
      rw [hrr]
      exact havg'
  · intro r _ havg hmem
    unfold haveOf at hmem
    have hfil := List.mem_filter.mp hmem
    rw [havg] at hfil
    simp at hfil

/-- Witness for C10: media `"Alpha"` has duration 0, so its average view
fraction is missing; its exactly-matched curriculum row is classified
unmatched (index 0 re-enters the fuzzy pass) and rows still missing are kept
out of module aggregation. -/
theorem claim_C10_unmatched_classification_witness :
    (0 ∈ unmatchedIdxOf false
      [⟨strToCodes "Alpha", .txt (strToCodes "0"), .txt (strToCodes "10"), none⟩]
      [⟨some (strToCodes "W1"), some 1, some (strToCodes "Alpha")⟩]) ∧
    (∀ r ∈ m1FilledOf (fun _ _ => 0) false
      [⟨strToCodes "Alpha", .txt (strToCodes "0"), .txt (strToCodes "10"), none⟩]
      [⟨some (strToCodes "W1"), some 1, some (strToCodes "Alpha")⟩],
      avgOf r = none → r ∉ haveOf (fun _ _ => 0) false
        [⟨strToCodes "Alpha", .txt (strToCodes "0"), .txt (strToCodes "10"), none⟩]
        [⟨some (strToCodes "W1"), some 1, some (strToCodes "Alpha")⟩]) :=
  ⟨((claim_C10_unmatched_classification (fun _ _ => 0) false
      [⟨strToCodes "Alpha", .txt (strToCodes "0"), .txt (strToCodes "10"), none⟩]
      [⟨some (strToCodes "W1"), some 1, some (strToCodes "Alpha")⟩]).1 0
      { module := strToCodes "W1", pos? := some 1, title := strToCodes "Alpha",
        ckey := strToCodes "alpha",
        hit := some (0,
          { title := strToCodes "Alpha", dur := some 0, viewers := 1, avg := none,
            ekey := strToCodes "alpha" }) }
      (by with_unfolding_all rfl)).mp (by with_unfolding_all rfl),
   (claim_C10_unmatched_classification (fun _ _ => 0) false
      [⟨strToCodes "Alpha", .txt (strToCodes "0"), .txt (strToCodes "10"), none⟩]
      [⟨some (strToCodes "W1"), some 1, some (strToCodes "Alpha")⟩]).2⟩

/-! ### Claims C4, C5, C6 -/

theorem wIdx_get? {α : Type _} : ∀ (l : List α) (m n : Nat),
    (wIdx m l).get? n = (l.get? n).map (fun a => (m + n, a)) := by
  intro l
  induction l with
  | nil => intro m n; simp [wIdx]
  | cons a t ih =>
    intro m n
    cases n with
    | zero => simp [wIdx]
    | succ k =>
      have harith : m + 1 + k = m + (k + 1) := by omega
      simp only [wIdx, List.get?_cons_succ, ih (m + 1) k, harith]

/-- C4 (amended): for every resolved user-identity column,
`view_fraction_of_total_catalog` of the `n`-th student row equals the user's
summed view seconds divided by the sum of the duration cells over **all
engagement rows** — a media title with several view sessions contributes its
duration once per row, not once per distinct title (missing when that total
is zero, or when the user key has no summable view time). -/
theorem claim_C4_student_catalog_fraction (rows : List ERow) (n : Nat)
    (srow : StudentRow) (h : (studentTableOf true rows).get? n = some srow) :
    ∃ k, (groupKeys (rows.map userKey)).get? n = some k ∧
      srow.viewFracTotal =
        (if ((rows.filterMap (fun r => toSeconds r.dur)).sum : ℚ) = 0 then none
         else if ((rows.filter (fun r => r.user = some k)).filterMap
                  (fun r => toSeconds r.view)) = [] then none
         else some (((rows.filter (fun r => r.user = some k)).filterMap
                  (fun r => toSeconds r.view)).sum /
                (rows.filterMap (fun r => toSeconds r.dur)).sum)) := by
  simp only [studentTableOf, if_true] at h
  rw [List.get?_map, wIdx_get?] at h
  cases hk : (groupKeys (rows.map userKey)).get? n with
  | none => rw [hk] at h; cases h
  | some k =>
    rw [hk] at h
    simp only [Option.map_some', Option.some.injEq] at h
    refine ⟨k, rfl, ?_⟩
    rw [← h]
    show (if ((rows.filterMap (fun r => toSeconds r.dur)).sum : ℚ) = 0 then none
          else (if ((rows.filter (fun r => r.user = some k)).filterMap
                    (fun r => toSeconds r.view)) = [] then none
                else some ((rows.filter (fun r => r.user = some k)).filterMap
                    (fun r => toSeconds r.view)).sum).map
              (· / (rows.filterMap (fun r => toSeconds r.dur)).sum)) = _
    by_cases ht : ((rows.filterMap (fun r => toSeconds r.dur)).sum : ℚ) = 0
    · rw [if_pos ht, if_pos ht]
    · rw [if_neg ht, if_neg ht]
      by_cases hv : ((rows.filter (fun r => r.user = some k)).filterMap
          (fun r => toSeconds r.view)) = []
      · rw [if_pos hv, if_pos hv]; rfl
      · rw [if_neg hv, if_neg hv]; rfl

/-- Witness for C4: one row, user `"u"`, duration 100 and view time 50; the
theorem applied at row 0 of the student table. -/
theorem claim_C4_student_catalog_fraction_witness :
    ∃ k, (groupKeys (([⟨strToCodes "M", .txt (strToCodes "100"),
        .txt (strToCodes "50"), some (strToCodes "u")⟩] : List ERow).map userKey)).get? 0
        = some k ∧
      (⟨pseudoId 0, some (1/2), some (1/2)⟩ : StudentRow).viewFracTotal =
        (if ((([⟨strToCodes "M", .txt (strToCodes "100"), .txt (strToCodes "50"),
                some (strToCodes "u")⟩] : List ERow).filterMap
                (fun r => toSeconds r.dur)).sum : ℚ) = 0 then none
         else if ((([⟨strToCodes "M", .txt (strToCodes "100"), .txt (strToCodes "50"),
                some (strToCodes "u")⟩] : List ERow).filter
                (fun r => r.user = some k)).filterMap (fun r => toSeconds r.view)) = []
              then none
         else some (((([⟨strToCodes "M", .txt (strToCodes "100"), .txt (strToCodes "50"),
                some (strToCodes "u")⟩] : List ERow).filter
                (fun r => r.user = some k)).filterMap (fun r => toSeconds r.view)).sum /
              (([⟨strToCodes "M", .txt (strToCodes "100"), .txt (strToCodes "50"),
                some (strToCodes "u")⟩] : List ERow).filterMap
                (fun r => toSeconds r.dur)).sum)) :=
  claim_C4_student_catalog_fraction
    [⟨strToCodes "M", .txt (strToCodes "100"), .txt (strToCodes "50"),
      some (strToCodes "u")⟩] 0 ⟨pseudoId 0, some (1/2), some (1/2)⟩
    (by with_unfolding_all rfl)

/-- Counterexample to C4 as stated: two view sessions of the same media `"M"`
(duration 100, view 50 each, user `"u"`). The code's denominator is 200 (one
per row) and it emits 100/200 = 1/2; the claim's denominator (each distinct
media title once) is 100 and predicts 100/100 = 1 ≠ 1/2. -/
theorem claim_C4_counterexample :
    (studentTableOf true
      [⟨strToCodes "M", .txt (strToCodes "100"), .txt (strToCodes "50"),
        some (strToCodes "u")⟩,
       ⟨strToCodes "M", .txt (strToCodes "100"), .txt (strToCodes "50"),
        some (strToCodes "u")⟩]).map (fun s => s.viewFracTotal) = [some (1/2)] ∧
    ((100 : ℚ) / 100 ≠ 1 / 2) :=
  ⟨by with_unfolding_all rfl, by norm_num⟩

/-- C5 (code bug): the per-media average view fraction and the per-student
catalog fraction are claimed (and documented in the source, lines 154, 171,
185) to lie in [0,1], but nothing clamps view time by duration: a row with
duration 100 s and view time 150 s yields the emitted fraction 3/2 > 1. -/
theorem claim_C5_fraction_bounds_bug :
    (echoSummaryOf true
      [⟨strToCodes "Lecture 1", .txt (strToCodes "01:40"), .txt (strToCodes "02:30"),
        some (strToCodes "a")⟩]).map (fun m => m.avg) = [some (3/2)] ∧
    (studentTableOf true
      [⟨strToCodes "Lecture 1", .txt (strToCodes "01:40"), .txt (strToCodes "02:30"),
        some (strToCodes "a")⟩]).map (fun s => s.viewFracTotal) = [some (3/2)] ∧
    ¬ ((3 : ℚ) / 2 ≤ 1) :=
  ⟨by with_unfolding_all rfl, by with_unfolding_all rfl, by norm_num⟩

/-- C6: `build_echo_tables` is deterministic — equal engagement rows, equal
user-column presence and equal curriculum lists give equal output tables
(the embedding fixes Python's deterministic iteration orders: sorted groupby
keys, stable sorts, insertion-ordered dicts; no other order source exists in
the code). -/
theorem claim_C6_determinism (scorer : PyStr → PyStr → Nat) (u1 u2 : Bool)
    (rows1 rows2 : List ERow) (cur1 cur2 : List CRow)
    (hu : u1 = u2) (hr : rows1 = rows2) (hc : cur1 = cur2) :
    buildEchoTables scorer u1 rows1 cur1 = buildEchoTables scorer u2 rows2 cur2 := by
  subst hu; subst hr; subst hc; rfl

/-- Witness for C6 at the spec's end-to-end scenario inputs. -/
theorem claim_C6_determinism_witness :
    buildEchoTables (fun _ _ => 0) true
      [⟨strToCodes "Lecture 1", .txt (strToCodes "10:00"), .txt (strToCodes "05:00"),
        some (strToCodes "a")⟩]
      [⟨some (strToCodes "Week 1"), some 1, some (strToCodes "Lecture 1")⟩] =
    buildEchoTables (fun _ _ => 0) true
      [⟨strToCodes "Lecture 1", .txt (strToCodes "10:00"), .txt (strToCodes "05:00"),
        some (strToCodes "a")⟩]
      [⟨some (strToCodes "Week 1"), some 1, some (strToCodes "Lecture 1")⟩] :=
  claim_C6_determinism (fun _ _ => 0) true true _ _ _ _ rfl rfl rfl
